import Mathlib

/-!
Shallow embedding of the `ditherio` dithering library (package `dither`,
file `dither.go`) together with the Go standard-library pieces it relies
on (`image.RGBA`, `color.Color.RGBA()`, `color.RGBAModel`,
`color.Palette.Convert`, `image/color/palette.WebSafe` / `.Plan9`,
`draw.Draw` with `draw.Src`).

Machine integers are modelled as `Nat` / `Int` with explicit `% 2^w`
where the Go code can overflow; `int64` quantities stay far below
`2^63` in this program (channel values are at most `0xFFFF` and weight
multipliers at most `8`), so they are modelled as unbounded `Int`.
Go's `>>` on a signed integer is an arithmetic shift, i.e. floor
division by a power of two, modelled with `Int.fdiv`.
-/

namespace Ditherio

/-- The four `uint32` values returned by Go's `color.Color.RGBA()`:
alpha-premultiplied channels in the range `[0, 0xFFFF]`. -/
structure RGBAQuad where
  r : Nat
  g : Nat
  b : Nat
  a : Nat
deriving DecidableEq

/-- The Go `color.Color` values that occur in this program:
`color.RGBA` (8-bit premultiplied, stored in `image.RGBA` buffers),
`color.NRGBA64` (16-bit non-premultiplied, built by `makeColor`) and
`color.Gray16` (built by `BlackAndWhitePalette`). -/
inductive Color where
  | rgba (r g b a : Nat)
  | nrgba64 (r g b a : Nat)
  | gray16 (y : Nat)
deriving DecidableEq

/-- Go's `RGBA()` method on each of the three color types:
`color.RGBA` replicates each 8-bit channel to 16 bits (`v | v<<8`),
`color.NRGBA64` premultiplies by alpha (`v * a / 0xffff`),
`color.Gray16` replicates the gray value and is fully opaque. -/
def Color.RGBA : Color → RGBAQuad
  | .rgba r g b a =>
      ⟨r % 256 * 257, g % 256 * 257, b % 256 * 257, a % 256 * 257⟩
  | .nrgba64 r g b a =>
      ⟨r % 65536 * (a % 65536) / 65535, g % 65536 * (a % 65536) / 65535,
       b % 65536 * (a % 65536) / 65535, a % 65536⟩
  | .gray16 y => ⟨y % 65536, y % 65536, y % 65536, 65535⟩

/-- `dither.RGBAVec`: a single pixel error value, stored as `int64` in the
source "to prevent underflow and overflow"; modelled as `Int`. -/
structure RGBAVec where
  r : Int
  g : Int
  b : Int
  a : Int
deriving DecidableEq

/-- `dither.colorDiff`: per-channel difference of the `RGBA()` values. -/
def colorDiff (a b : Color) : RGBAVec where
  r := (a.RGBA.r : Int) - (b.RGBA.r : Int)
  g := (a.RGBA.g : Int) - (b.RGBA.g : Int)
  b := (a.RGBA.b : Int) - (b.RGBA.b : Int)
  a := (a.RGBA.a : Int) - (b.RGBA.a : Int)

/-- `dither.clamp`. -/
def clamp (val mn mx : Int) : Int :=
  if val > mx then mx
  else if val < mn then mn
  else val

/-- `dither.makeColor`: clamp each channel into `[0, 0xFFFF]` and build a
`color.NRGBA64`. -/
def makeColor (r g b a : Int) : Color :=
  Color.nrgba64 (clamp r 0 0xFFFF).toNat (clamp g 0 0xFFFF).toNat
    (clamp b 0 0xFFFF).toNat (clamp a 0 0xFFFF).toNat

/-- `dither.applyWeightsFloydSteinber`:
`new = orig + (err * mul) >> 4` per channel, then `makeColor`. -/
def applyWeightsFloydSteinber (orig : Color) (err : RGBAVec) (mul : Int) : Color :=
  let q := orig.RGBA
  makeColor ((q.r : Int) + Int.fdiv (err.r * mul) 16)
    ((q.g : Int) + Int.fdiv (err.g * mul) 16)
    ((q.b : Int) + Int.fdiv (err.b * mul) 16)
    ((q.a : Int) + Int.fdiv (err.a * mul) 16)

/-- `dither.applyWeightsBurkes`:
`new = orig + (err << mul) >> 5` per channel, then `makeColor`. -/
def applyWeightsBurkes (orig : Color) (err : RGBAVec) (mul : Nat) : Color :=
  let q := orig.RGBA
  makeColor ((q.r : Int) + Int.fdiv (err.r * 2 ^ mul) 32)
    ((q.g : Int) + Int.fdiv (err.g * 2 ^ mul) 32)
    ((q.b : Int) + Int.fdiv (err.b * 2 ^ mul) 32)
    ((q.a : Int) + Int.fdiv (err.a * 2 ^ mul) 32)

/-- `image.Rectangle` with `Min = (minX, minY)`, `Max = (maxX, maxY)`. -/
structure Rect where
  minX : Int
  minY : Int
  maxX : Int
  maxY : Int
deriving DecidableEq

/-- Go's `image.Point.In`: `Min.X <= x < Max.X && Min.Y <= y < Max.Y`. -/
def Rect.inside (rc : Rect) (x y : Int) : Prop :=
  rc.minX ≤ x ∧ x < rc.maxX ∧ rc.minY ≤ y ∧ y < rc.maxY

instance (rc : Rect) (x y : Int) : Decidable (rc.inside x y) := by
  unfold Rect.inside
  infer_instance

/-- One stored pixel of an `image.RGBA` buffer: four `uint8` channels. -/
structure Pix8 where
  r : Nat
  g : Nat
  b : Nat
  a : Nat
deriving DecidableEq

/-- Go's `color.RGBAModel` conversion used by `image.RGBA.Set`:
take `RGBA()` and keep the high byte of each 16-bit channel. -/
def rgbaModel (c : Color) : Pix8 :=
  ⟨c.RGBA.r >>> 8, c.RGBA.g >>> 8, c.RGBA.b >>> 8, c.RGBA.a >>> 8⟩

/-- Go's `image.RGBA`: a rectangle of stored 8-bit RGBA pixels.
The pixel store is total as a function; only positions inside `rect`
are ever read or written by the embedded operations. -/
structure RGBAImage where
  rect : Rect
  data : Int → Int → Pix8

/-- `image.RGBA.At`: out-of-bounds reads return the zero `color.RGBA{}`. -/
def RGBAImage.At (d : RGBAImage) (x y : Int) : Color :=
  if d.rect.inside x y then
    Color.rgba (d.data x y).r (d.data x y).g (d.data x y).b (d.data x y).a
  else Color.rgba 0 0 0 0

/-- `image.RGBA.Set`: out-of-bounds writes are silently dropped;
in-bounds writes store the `color.RGBAModel` conversion of the color. -/
def RGBAImage.Set (d : RGBAImage) (x y : Int) (c : Color) : RGBAImage :=
  if d.rect.inside x y then
    ⟨d.rect, fun u v => if u = x ∧ v = y then rgbaModel c else d.data u v⟩
  else d

/-- `image.NewRGBA`: a freshly allocated, zeroed buffer. -/
def NewRGBA (rc : Rect) : RGBAImage :=
  ⟨rc, fun _ _ => ⟨0, 0, 0, 0⟩⟩

/-- The `image.Image` interface as consumed by `Dither`: bounds plus a
color lookup (`At`). -/
structure SrcImage where
  rect : Rect
  colAt : Int → Int → Color

/-- The integers `a, a+1, ..., b-1` in increasing order. -/
def intRange (a b : Int) : List Int :=
  (List.range (b - a).toNat).map fun (i : Nat) => a + (i : Int)

/-- The points of one pixel row `y`, left to right. -/
def rowPts (rc : Rect) (y : Int) : List (Int × Int) :=
  (intRange rc.minX rc.maxX).map fun x => (x, y)

/-- All points of a rectangle in raster order: rows top to bottom,
left to right inside each row — exactly the nested
`for y ... for x ...` loop order of `Dither`. -/
def rectPts (rc : Rect) : List (Int × Int) :=
  (intRange rc.minY rc.maxY).flatMap (rowPts rc)

/-- `draw.Draw(dithered, rect, img, rect.Min, draw.Src)`: copy every
source pixel into the freshly allocated RGBA buffer, converting through
`color.RGBAModel` as `image.RGBA` storage does. -/
def drawCopy (dst : RGBAImage) (src : SrcImage) : RGBAImage :=
  (rectPts dst.rect).foldl (fun d p => d.Set p.1 p.2 (src.colAt p.1 p.2)) dst

/-- `dither.FloydSteinberg`: four sequential `Set` calls on the
neighbors right, below-right, below, below-left with weights
`7, 1, 5, 3` over `>> 4`. -/
def FloydSteinberg (x y : Int) (img : RGBAImage) (err : RGBAVec) : RGBAImage :=
  let i1 := img.Set (x + 1) y (applyWeightsFloydSteinber (img.At (x + 1) y) err 7)
  let i2 := i1.Set (x + 1) (y + 1) (applyWeightsFloydSteinber (i1.At (x + 1) (y + 1)) err 1)
  let i3 := i2.Set x (y + 1) (applyWeightsFloydSteinber (i2.At x (y + 1)) err 5)
  i3.Set (x - 1) (y + 1) (applyWeightsFloydSteinber (i3.At (x - 1) (y + 1)) err 3)

/-- `dither.Burkes`: seven sequential `Set` calls with left-shift
amounts `3, 2, 1, 2, 3, 2, 1` over `>> 5`. -/
def Burkes (x y : Int) (img : RGBAImage) (err : RGBAVec) : RGBAImage :=
  let i1 := img.Set (x + 1) y (applyWeightsBurkes (img.At (x + 1) y) err 3)
  let i2 := i1.Set (x + 2) y (applyWeightsBurkes (i1.At (x + 2) y) err 2)
  let i3 := i2.Set (x - 2) (y + 1) (applyWeightsBurkes (i2.At (x - 2) (y + 1)) err 1)
  let i4 := i3.Set (x - 1) (y + 1) (applyWeightsBurkes (i3.At (x - 1) (y + 1)) err 2)
  let i5 := i4.Set x (y + 1) (applyWeightsBurkes (i4.At x (y + 1)) err 3)
  let i6 := i5.Set (x + 1) (y + 1) (applyWeightsBurkes (i5.At (x + 1) (y + 1)) err 2)
  i6.Set (x + 2) (y + 1) (applyWeightsBurkes (i6.At (x + 2) (y + 1)) err 1)

/-- `dither.BlackAndWhitePalette`: average the three premultiplied
channels, threshold at `0xFFFF >> 1`, return a `color.Gray16`. -/
def BlackAndWhitePalette (c : Color) : Color :=
  let q := c.RGBA
  let gray := (q.r + q.g + q.b) / 3
  let gray2 := if gray < 0xFFFF >>> 1 then 0 else 0xFFFF
  Color.gray16 gray2

/-- Go's `color.sqDiff` on `uint32`: `d := x - y; (d * d) >> 2`, all
modulo `2^32`. -/
def sqDiff (x y : Nat) : Nat :=
  let d := (x + 4294967296 - y) % 4294967296
  (d * d % 4294967296) >>> 2

/-- The per-candidate distance computed inside `color.Palette.Index`:
the `uint32` sum of the four channel `sqDiff`s. -/
def paletteDist (q : RGBAQuad) (v : Color) : Nat :=
  (sqDiff q.r v.RGBA.r + sqDiff q.g v.RGBA.g +
    sqDiff q.b v.RGBA.b + sqDiff q.a v.RGBA.a) % 4294967296

/-- The scan loop of Go's `color.Palette.Index`: track the best index
`ret` and best distance `bestSum`, returning immediately on an exact
match (`sum == 0`). -/
def paletteIndexLoop (q : RGBAQuad) : List Color → Nat → Nat → Nat → Nat
  | [], _, ret, _ => ret
  | v :: rest, i, ret, bestSum =>
    let sum := paletteDist q v
    if sum < bestSum then
      if sum = 0 then i else paletteIndexLoop q rest (i + 1) i sum
    else paletteIndexLoop q rest (i + 1) ret bestSum

/-- Go's `color.Palette.Index`, starting from `ret = 0`,
`bestSum = 1<<32 - 1`. -/
def paletteIndex (p : List Color) (c : Color) : Nat :=
  paletteIndexLoop c.RGBA p 0 0 4294967295

/-- Go's `color.Palette.Convert` for a non-empty palette:
`p[p.Index(c)]`.  (For an empty palette Go returns `nil`; the two
palettes used in this program are non-empty.) -/
def paletteConvert (p : List Color) (c : Color) : Color :=
  p.getD (paletteIndex p c) (Color.rgba 0 0 0 0)

/-- Go's `image/color/palette.WebSafe`: the 6×6×6 cube
`RGBA{r*0x33, g*0x33, b*0x33, 0xff}` in `r`-major order. -/
def WebSafe : List Color :=
  (List.range 216).map fun i =>
    Color.rgba (i / 36 * 0x33) (i / 6 % 6 * 0x33) (i % 6 * 0x33) 0xff

/-- Go's `image/color/palette.Plan9`: 256 colors generated from the
base-4 digits `r, v, g, b` of the index (in that nesting order), gray
ramp `0x11 * v` when `r = g = b = 0`, otherwise
`channel * (17 * (4*den + v)) / den` with `den = max(r, g, b)`. -/
def Plan9 : List Color :=
  (List.range 256).map fun i =>
    let r := i / 64
    let v := i / 16 % 4
    let g := i / 4 % 4
    let b := i % 4
    let den := max r (max g b)
    if den = 0 then
      Color.rgba (0x11 * v) (0x11 * v) (0x11 * v) 0xff
    else
      let num := 17 * (4 * den + v)
      Color.rgba (r * num / den) (g * num / den) (b * num / den) 0xff

/-- `dither.WebSafePalette`. -/
def WebSafePalette (c : Color) : Color :=
  paletteConvert WebSafe c

/-- `dither.Plan9Palette`. -/
def Plan9Palette (c : Color) : Color :=
  paletteConvert Plan9 c

/-- The type of `dither.Algo` callbacks: they receive the current pixel
position, (a pointer to) the dithered buffer, and the error vector. -/
abbrev Algo := Int → Int → RGBAImage → RGBAVec → RGBAImage

/-- The body of `Dither`'s inner loop at one pixel: read the current
value, quantize it with `find`, write it back, and hand the error to the
kernel. -/
def ditherBody (algo : Algo) (find : Color → Color) (p : Int × Int)
    (d : RGBAImage) : RGBAImage :=
  let oldPixel := d.At p.1 p.2
  let newPixel := find oldPixel
  algo p.1 p.2 (d.Set p.1 p.2 newPixel) (colorDiff oldPixel newPixel)

/-- The two heap objects live during a `Dither` call: the caller's
source image and the freshly allocated `dithered` buffer.  Every write
in the source program targets the `dithered` buffer. -/
structure DitherState where
  img : SrcImage
  dithered : RGBAImage

/-- `dither.Dither` as explicit state passing over both heap objects:
allocate, copy the source in, then run the raster-order loop. -/
def DitherRun (img : SrcImage) (algo : Algo) (find : Color → Color) :
    DitherState :=
  let dithered := drawCopy (NewRGBA img.rect) img
  (rectPts img.rect).foldl
    (fun s p => ⟨s.img, ditherBody algo find p s.dithered⟩)
    ⟨img, dithered⟩

/-- `dither.Dither`: the returned image. -/
def Dither (img : SrcImage) (algo : Algo) (find : Color → Color) :
    RGBAImage :=
  (DitherRun img algo find).dithered

/-- The per-neighbor share computed by `applyWeightsFloydSteinber`:
`(err * mul) >> 4` with an arithmetic shift. -/
def fsShare (e mul : Int) : Int :=
  Int.fdiv (e * mul) 16

/-- Modelled from the spec's words for comparison with the source: a
neighbor share expressed as an integer numerator over the common
denominator 32, `(err * num) >> 5`. -/
def burkesShare (e num : Int) : Int :=
  Int.fdiv (e * num) 32

/-- Modelled from the spec's words for comparison with the source: a
Burkes neighbor update whose error share is `numerator / 32`. -/
def specBurkesUpdate (orig : Color) (err : RGBAVec) (num : Int) : Color :=
  let q := orig.RGBA
  makeColor ((q.r : Int) + burkesShare err.r num)
    ((q.g : Int) + burkesShare err.g num)
    ((q.b : Int) + burkesShare err.b num)
    ((q.a : Int) + burkesShare err.a num)

/-- A `color.RGBA` value with in-range (8-bit) channels, the shape of
every entry of the two fixed palettes. -/
def ByteColor (c : Color) : Prop :=
  ∃ r g b a, r ≤ 255 ∧ g ≤ 255 ∧ b ≤ 255 ∧ a ≤ 255 ∧ c = Color.rgba r g b a

/-- Strict raster order on points: earlier row, or same row further
left. -/
def rasterLT (p q : Int × Int) : Prop :=
  p.2 < q.2 ∨ (p.2 = q.2 ∧ p.1 < q.1)

/-- A kernel that never touches the current pixel nor any pixel at or
before it in raster order, and never changes the buffer's bounds — the
shape shared by `FloydSteinberg` and `Burkes`. -/
def RasterKernel (algo : Algo) : Prop :=
  (∀ x y img err, (algo x y img err).rect = img.rect) ∧
  (∀ x y img err a b, b < y ∨ (b = y ∧ a ≤ x) →
    (algo x y img err).data a b = img.data a b)

/-- All stored channels of the buffer fit in 8 bits — the invariant of
a well-formed `image.RGBA` pixel store. -/
def Bounded (d : RGBAImage) : Prop :=
  ∀ x y, (d.data x y).r ≤ 255 ∧ (d.data x y).g ≤ 255 ∧
    (d.data x y).b ≤ 255 ∧ (d.data x y).a ≤ 255

/-! ## Theorems -/

/-- C2: the monochrome strategy computes luminance as the unweighted
mean `(r + g + b) / 3` of the premultiplied 16-bit channels and returns
pure black (`Gray16 0`) exactly when that luminance is strictly below
half the maximum representable channel value `65535`, and pure white
(`Gray16 0xFFFF`) otherwise. -/
theorem c2_monochrome_threshold (c : Color) :
    (BlackAndWhitePalette c = Color.gray16 0 ∨
      BlackAndWhitePalette c = Color.gray16 65535) ∧
    (BlackAndWhitePalette c = Color.gray16 0 ↔
      (c.RGBA.r + c.RGBA.g + c.RGBA.b) / 3 < 65535 / 2) := by
  have hhalf : (0xFFFF >>> 1 : Nat) = 65535 / 2 := by decide
  unfold BlackAndWhitePalette
  dsimp only
  by_cases h : (c.RGBA.r + c.RGBA.g + c.RGBA.b) / 3 < 0xFFFF >>> 1
  · rw [if_pos h]
    refine ⟨Or.inl rfl, ?_⟩
    simp only [Color.gray16.injEq]
    rw [← hhalf]
    exact ⟨fun _ => h, fun _ => trivial⟩
  · rw [if_neg h]
    refine ⟨Or.inr rfl, ?_⟩
    simp only [Color.gray16.injEq]
    rw [← hhalf]
    exact ⟨fun h65 => absurd h65 (by norm_num), fun hlt => absurd hlt h⟩

/-- C5 counterexample: a fully transparent input color (alpha `0`) is
mapped by the monochrome strategy to a `Gray16`, whose alpha channel is
`0xFFFF`, so the output alpha does not equal the input alpha. -/
theorem c5_alpha_not_preserved :
    ¬ ((BlackAndWhitePalette (Color.nrgba64 7 7 7 0)).RGBA.a
        = (Color.nrgba64 7 7 7 0).RGBA.a) := by decide

/-- C5 amended: the monochrome strategy discards the input alpha: the
returned color is always fully opaque (`alpha = 0xFFFF`). -/
theorem c5_alpha_always_opaque (c : Color) :
    (BlackAndWhitePalette c).RGBA.a = 65535 := rfl

/-- The Floyd-Steinberg weight application factored through the
per-neighbor share `(err * mul) >> 4`. -/
theorem applyWeightsFloydSteinber_eq (orig : Color) (err : RGBAVec) (mul : Int) :
    applyWeightsFloydSteinber orig err mul =
      makeColor ((orig.RGBA.r : Int) + fsShare err.r mul)
        ((orig.RGBA.g : Int) + fsShare err.g mul)
        ((orig.RGBA.b : Int) + fsShare err.b mul)
        ((orig.RGBA.a : Int) + fsShare err.a mul) := rfl

/-- C4 counterexample: at the concrete (and reachable) error value
`e = 257`, the four distributed Floyd-Steinberg shares sum to `256`,
not `e`: the claimed identity `(e*7)>>4 + (e*1)>>4 + (e*5)>>4 +
(e*3)>>4 = e` fails. -/
theorem c4_sum_not_conserved :
    fsShare 257 7 + fsShare 257 1 + fsShare 257 5 + fsShare 257 3 ≠
      (257 : Int) := by decide

/-- C4 amended: for every error value `e`, the sum of the four weighted
shares `(e*7)>>4 + (e*1)>>4 + (e*5)>>4 + (e*3)>>4` equals `e` minus a
truncation loss of at most 3; it equals `e` exactly when `16 ∣ e`. -/
theorem c4_fs_error_conservation (e : Int) :
    e - 3 ≤ fsShare e 7 + fsShare e 1 + fsShare e 5 + fsShare e 3 ∧
    fsShare e 7 + fsShare e 1 + fsShare e 5 + fsShare e 3 ≤ e ∧
    (fsShare e 7 + fsShare e 1 + fsShare e 5 + fsShare e 3 = e ↔
      (16 : Int) ∣ e) := by
  obtain ⟨q, r, hr0, hr16, he⟩ :
      ∃ q r, 0 ≤ r ∧ r < 16 ∧ e = 16 * q + r :=
    ⟨e / 16, e % 16, Int.emod_nonneg e (by norm_num),
      Int.emod_lt_of_pos e (by norm_num), (Int.ediv_add_emod e 16).symm⟩
  have key : ∀ m : Int, fsShare e m = q * m + r * m / 16 := by
    intro m
    unfold fsShare
    rw [Int.fdiv_eq_ediv _ (by norm_num)]
    rw [show e * m = r * m + q * m * 16 by rw [he]; ring]
    rw [Int.add_mul_ediv_right _ _ (by norm_num)]
    ring
  rw [key 7, key 1, key 5, key 3]
  subst he
  interval_cases r <;> omega

/-- C3 counterexample: a two-pixel image with the Burkes kernel applied
at the left pixel with error `8224` per color channel.  The claimed
numerator `4` for the right neighbor would put `(8224*4)>>5 = 1028`
into the neighbor (stored as `4` after 8-bit truncation), but the code
shifts the error left by `3`, putting `(8224<<3)>>5 = 2056` there
(stored as `8`). -/
theorem c3_burkes_weight_mismatch :
    ((Burkes 0 0 ⟨⟨0, 0, 2, 1⟩, fun _ _ => ⟨0, 0, 0, 255⟩⟩
        ⟨8224, 8224, 8224, 0⟩).data 1 0 = ⟨8, 8, 8, 255⟩) ∧
    ¬ ((Burkes 0 0 ⟨⟨0, 0, 2, 1⟩, fun _ _ => ⟨0, 0, 0, 255⟩⟩
        ⟨8224, 8224, 8224, 0⟩).data 1 0 = ⟨4, 4, 4, 255⟩) := by decide

/-- C3 amended: the Burkes kernel distributes the error to two pixels
to the right and five pixels in the row below with a common denominator
of 32 (right-shift of 5), but the effective integer numerators are
right:8, right+1:4, below−2:2, below−1:4, below:8, below+1:4,
below+2:2 (the left-shift amounts `3,2,1,2,3,2,1` act as numerators
`2^3, 2^2, 2^1, ...`), and these numerators sum to 32. -/
theorem c3_burkes_weights (x y : Int) (img : RGBAImage) (err : RGBAVec) :
    (Burkes x y img err =
      (let i1 := img.Set (x + 1) y (specBurkesUpdate (img.At (x + 1) y) err 8)
       let i2 := i1.Set (x + 2) y (specBurkesUpdate (i1.At (x + 2) y) err 4)
       let i3 := i2.Set (x - 2) (y + 1) (specBurkesUpdate (i2.At (x - 2) (y + 1)) err 2)
       let i4 := i3.Set (x - 1) (y + 1) (specBurkesUpdate (i3.At (x - 1) (y + 1)) err 4)
       let i5 := i4.Set x (y + 1) (specBurkesUpdate (i4.At x (y + 1)) err 8)
       let i6 := i5.Set (x + 1) (y + 1) (specBurkesUpdate (i5.At (x + 1) (y + 1)) err 4)
       i6.Set (x + 2) (y + 1) (specBurkesUpdate (i6.At (x + 2) (y + 1)) err 2))) ∧
    (8 + 4 + 2 + 4 + 8 + 4 + 2 : Int) = 32 := by
  have h8 : ∀ (o : Color) (e : RGBAVec), applyWeightsBurkes o e 3 = specBurkesUpdate o e 8 := by
    intro o e
    unfold applyWeightsBurkes specBurkesUpdate burkesShare
    norm_num
  have h4 : ∀ (o : Color) (e : RGBAVec), applyWeightsBurkes o e 2 = specBurkesUpdate o e 4 := by
    intro o e
    unfold applyWeightsBurkes specBurkesUpdate burkesShare
    norm_num
  have h2 : ∀ (o : Color) (e : RGBAVec), applyWeightsBurkes o e 1 = specBurkesUpdate o e 2 := by
    intro o e
    unfold applyWeightsBurkes specBurkesUpdate burkesShare
    norm_num
  refine ⟨?_, by norm_num⟩
  unfold Burkes
  dsimp only
  simp only [h8, h4, h2]

/-- `sqDiff x x = 0`. -/
theorem sqDiff_self (x : Nat) : sqDiff x x = 0 := by
  unfold sqDiff
  dsimp only
  rw [show x + 4294967296 - x = 4294967296 by omega]
  decide

/-- Any `sqDiff` value fits under `2^30`. -/
theorem sqDiff_le (x y : Nat) : sqDiff x y ≤ 1073741823 := by
  unfold sqDiff
  dsimp only
  rw [Nat.shiftRight_eq_div_pow]
  have h1 : (x + 4294967296 - y) % 4294967296 * ((x + 4294967296 - y) % 4294967296) %
      4294967296 ≤ 4294967295 := by
    have := Nat.mod_lt ((x + 4294967296 - y) % 4294967296 *
      ((x + 4294967296 - y) % 4294967296)) (show 0 < 4294967296 by norm_num)
    omega
  calc (x + 4294967296 - y) % 4294967296 * ((x + 4294967296 - y) % 4294967296) %
        4294967296 / 2 ^ 2 ≤ 4294967295 / 2 ^ 2 := Nat.div_le_div_right h1
    _ = 1073741823 := by norm_num

/-- For 16-bit channel values, `sqDiff x y = 0` forces `x` and `y` to
differ by at most 1 (the `>> 2` in `sqDiff` absorbs differences of 1). -/
theorem sqDiff_eq_zero_close (x y : Nat) (hx : x ≤ 65535) (hy : y ≤ 65535)
    (h : sqDiff x y = 0) : x ≤ y + 1 ∧ y ≤ x + 1 := by
  unfold sqDiff at h
  dsimp only at h
  rw [Nat.shiftRight_eq_div_pow] at h
  rcases le_or_lt y x with hle | hlt
  · rw [show x + 4294967296 - y = (x - y) + 4294967296 by omega] at h
    rw [Nat.add_mod_right] at h
    rw [Nat.mod_eq_of_lt (show x - y < 4294967296 by omega)] at h
    rw [Nat.mod_eq_of_lt (by
      calc (x - y) * (x - y) ≤ 65535 * 65535 := Nat.mul_le_mul (by omega) (by omega)
        _ < 4294967296 := by norm_num)] at h
    refine ⟨?_, by omega⟩
    by_contra hc
    have h2 : 2 ≤ x - y := by omega
    have h4 : 2 * 2 ≤ (x - y) * (x - y) := Nat.mul_le_mul h2 h2
    have : 1 ≤ (x - y) * (x - y) / 2 ^ 2 := by
      rw [Nat.le_div_iff_mul_le (by norm_num)]
      omega
    omega
  · have he1 : 1 ≤ y - x := by omega
    have he2 : y - x ≤ 65535 := by omega
    rw [show x + 4294967296 - y = 4294967296 - (y - x) by omega] at h
    rw [Nat.mod_eq_of_lt (show 4294967296 - (y - x) < 4294967296 by omega)] at h
    rw [show (4294967296 - (y - x)) * (4294967296 - (y - x)) =
        4294967296 * (4294967296 - 2 * (y - x)) + (y - x) * (y - x) by
      zify [show y - x ≤ 4294967296 by omega, show 2 * (y - x) ≤ 4294967296 by omega,
        show x ≤ y by omega]
      ring] at h
    rw [Nat.mul_add_mod] at h
    rw [Nat.mod_eq_of_lt (by
      calc (y - x) * (y - x) ≤ 65535 * 65535 := Nat.mul_le_mul (by omega) (by omega)
        _ < 4294967296 := by norm_num)] at h
    refine ⟨by omega, ?_⟩
    by_contra hc
    have h2 : 2 ≤ y - x := by omega
    have h4 : 2 * 2 ≤ (y - x) * (y - x) := Nat.mul_le_mul h2 h2
    have : 1 ≤ (y - x) * (y - x) / 2 ^ 2 := by
      rw [Nat.le_div_iff_mul_le (by norm_num)]
      omega
    omega

/-- The palette distance of a color to itself is zero. -/
theorem paletteDist_self (c : Color) : paletteDist c.RGBA c = 0 := by
  unfold paletteDist
  rw [sqDiff_self, sqDiff_self, sqDiff_self, sqDiff_self]

/-- Two 8-bit palette entries at `sqDiff` distance zero are equal: their
replicated 16-bit channels are multiples of 257, so a difference of at
most 1 forces equality. -/
theorem byte_eq_of_dist_zero (v w : Color) (hv : ByteColor v) (hw : ByteColor w)
    (h : paletteDist v.RGBA w = 0) : w = v := by
  obtain ⟨r, g, b, a, hr, hg, hb, ha, rfl⟩ := hv
  obtain ⟨r', g', b', a', hr', hg', hb', ha', rfl⟩ := hw
  unfold paletteDist Color.RGBA at h
  dsimp only at h
  have b1 := sqDiff_le (r % 256 * 257) (r' % 256 * 257)
  have b2 := sqDiff_le (g % 256 * 257) (g' % 256 * 257)
  have b3 := sqDiff_le (b % 256 * 257) (b' % 256 * 257)
  have b4 := sqDiff_le (a % 256 * 257) (a' % 256 * 257)
  rw [Nat.mod_eq_of_lt (by omega)] at h
  have e1 : sqDiff (r % 256 * 257) (r' % 256 * 257) = 0 := by omega
  have e2 : sqDiff (g % 256 * 257) (g' % 256 * 257) = 0 := by omega
  have e3 : sqDiff (b % 256 * 257) (b' % 256 * 257) = 0 := by omega
  have e4 : sqDiff (a % 256 * 257) (a' % 256 * 257) = 0 := by omega
  have d1 := sqDiff_eq_zero_close _ _ (by omega) (by omega) e1
  have d2 := sqDiff_eq_zero_close _ _ (by omega) (by omega) e2
  have d3 := sqDiff_eq_zero_close _ _ (by omega) (by omega) e3
  have d4 := sqDiff_eq_zero_close _ _ (by omega) (by omega) e4
  simp only [Color.rgba.injEq]
  exact ⟨by omega, by omega, by omega, by omega⟩

/-- The `Index` scan loop returns either the incoming best index or an
index of one of the scanned entries. -/
theorem paletteIndexLoop_range (q : RGBAQuad) (l : List Color) :
    ∀ (i ret best : Nat), paletteIndexLoop q l i ret best = ret ∨
      (i ≤ paletteIndexLoop q l i ret best ∧
        paletteIndexLoop q l i ret best < i + l.length) := by
  induction l with
  | nil => intro i ret best; left; rfl
  | cons v rest ih =>
    intro i ret best
    simp only [paletteIndexLoop]
    by_cases h1 : paletteDist q v < best
    · by_cases h2 : paletteDist q v = 0
      · rw [if_pos h1, if_pos h2]
        right
        simp only [List.length_cons]
        omega
      · rw [if_pos h1, if_neg h2]
        rcases ih (i + 1) i (paletteDist q v) with h | h
        · right
          rw [h]
          simp only [List.length_cons]
          omega
        · right
          simp only [List.length_cons]
          omega
    · rw [if_neg h1]
      rcases ih (i + 1) ret best with h | h
      · left
        exact h
      · right
        simp only [List.length_cons]
        omega

/-- If some scanned entry is at distance zero and the incoming best
distance is positive, the scan returns an entry at distance zero. -/
theorem paletteIndexLoop_found (q : RGBAQuad) (l : List Color) :
    ∀ (i ret best : Nat), 0 < best → (∃ v ∈ l, paletteDist q v = 0) →
      ∃ k, k < l.length ∧ paletteIndexLoop q l i ret best = i + k ∧
        paletteDist q (l.getD k (Color.rgba 0 0 0 0)) = 0 := by
  induction l with
  | nil =>
    intro i ret best _ h
    obtain ⟨v, hv, _⟩ := h
    exact absurd hv (List.not_mem_nil v)
  | cons v rest ih =>
    intro i ret best hbest hex
    simp only [paletteIndexLoop]
    by_cases h2 : paletteDist q v = 0
    · have h1 : paletteDist q v < best := by omega
      rw [if_pos h1, if_pos h2]
      exact ⟨0, by simp, by omega, by simpa using h2⟩
    · have hex2 : ∃ w ∈ rest, paletteDist q w = 0 := by
        obtain ⟨w, hw, hw0⟩ := hex
        rcases List.mem_cons.mp hw with rfl | hmem
        · exact absurd hw0 h2
        · exact ⟨w, hmem, hw0⟩
      by_cases h1 : paletteDist q v < best
      · rw [if_pos h1, if_neg h2]
        obtain ⟨k, hk, heq, hd⟩ := ih (i + 1) i (paletteDist q v) (by omega) hex2
        refine ⟨k + 1, by simp only [List.length_cons]; omega, ?_, by simpa using hd⟩
        rw [heq]
        omega
      · rw [if_neg h1]
        obtain ⟨k, hk, heq, hd⟩ := ih (i + 1) ret best hbest hex2
        refine ⟨k + 1, by simp only [List.length_cons]; omega, ?_, by simpa using hd⟩
        rw [heq]
        omega

/-- The index returned by `Palette.Index` is in range for a non-empty
palette. -/
theorem paletteIndex_lt (p : List Color) (c : Color) (hp : p ≠ []) :
    paletteIndex p c < p.length := by
  unfold paletteIndex
  have hlen := List.length_pos_of_ne_nil hp
  rcases paletteIndexLoop_range c.RGBA p 0 0 4294967295 with h | h
  · rw [h]
    omega
  · omega

/-- `Palette.Convert` of a non-empty palette returns a palette entry. -/
theorem paletteConvert_mem (p : List Color) (c : Color) (hp : p ≠ []) :
    paletteConvert p c ∈ p := by
  unfold paletteConvert
  rw [List.getD_eq_getElem _ _ (paletteIndex_lt p c hp)]
  exact List.getElem_mem _

/-- If some palette entry is at distance zero from `c`, then
`Palette.Convert` returns an entry at distance zero from `c`. -/
theorem paletteConvert_dist_zero (p : List Color) (c : Color)
    (hex : ∃ v ∈ p, paletteDist c.RGBA v = 0) :
    paletteDist c.RGBA (paletteConvert p c) = 0 := by
  obtain ⟨k, hk, heq, hd⟩ :=
    paletteIndexLoop_found c.RGBA p 0 0 4294967295 (by norm_num) hex
  unfold paletteConvert paletteIndex
  rw [heq]
  simpa using hd

/-- Every WebSafe entry is an in-range `color.RGBA`. -/
theorem webSafe_byte : ∀ v ∈ WebSafe, ByteColor v := by
  intro v hv
  unfold WebSafe at hv
  obtain ⟨i, hi, rfl⟩ := List.mem_map.mp hv
  have hi2 := List.mem_range.mp hi
  exact ⟨_, _, _, _, by omega, by omega, by omega, by omega, rfl⟩

/-- Every Plan9 entry is an in-range `color.RGBA`. -/
theorem plan9_byte : ∀ v ∈ Plan9, ByteColor v := by
  intro v hv
  unfold Plan9 at hv
  obtain ⟨i, hi, rfl⟩ := List.mem_map.mp hv
  have hi2 := List.mem_range.mp hi
  dsimp only
  by_cases hden : max (i / 64) (max (i / 4 % 4) (i % 4)) = 0
  · rw [if_pos hden]
    exact ⟨_, _, _, _, by omega, by omega, by omega, by omega, rfl⟩
  · rw [if_neg hden]
    have hdpos : 0 < max (i / 64) (max (i / 4 % 4) (i % 4)) :=
      Nat.pos_of_ne_zero hden
    have hnum : 17 * (4 * max (i / 64) (max (i / 4 % 4) (i % 4)) + i / 16 % 4) ≤ 255 := by
      omega
    have hch : ∀ ch : Nat, ch ≤ max (i / 64) (max (i / 4 % 4) (i % 4)) →
        ch * (17 * (4 * max (i / 64) (max (i / 4 % 4) (i % 4)) + i / 16 % 4)) /
          max (i / 64) (max (i / 4 % 4) (i % 4)) ≤ 255 := by
      intro ch hle
      calc ch * (17 * (4 * max (i / 64) (max (i / 4 % 4) (i % 4)) + i / 16 % 4)) /
            max (i / 64) (max (i / 4 % 4) (i % 4)) ≤
          max (i / 64) (max (i / 4 % 4) (i % 4)) *
            (17 * (4 * max (i / 64) (max (i / 4 % 4) (i % 4)) + i / 16 % 4)) /
            max (i / 64) (max (i / 4 % 4) (i % 4)) :=
            Nat.div_le_div_right (Nat.mul_le_mul_right _ hle)
        _ = 17 * (4 * max (i / 64) (max (i / 4 % 4) (i % 4)) + i / 16 % 4) :=
            Nat.mul_div_cancel_left _ hdpos
        _ ≤ 255 := hnum
    exact ⟨_, _, _, _, hch _ (by omega), hch _ (by omega), hch _ (by omega),
      by omega, rfl⟩

/-- WebSafe is non-empty. -/
theorem webSafe_ne_nil : WebSafe ≠ [] := by
  intro h
  have := congrArg List.length h
  simp [WebSafe] at this

/-- Plan9 is non-empty. -/
theorem plan9_ne_nil : Plan9 ≠ [] := by
  intro h
  have := congrArg List.length h
  simp [Plan9] at this

/-- Generic idempotence of `Palette.Convert` on palettes of in-range
8-bit entries: converting an entry scans until the zero-distance hit
and returns an entry at distance zero, which must be the entry itself. -/
theorem paletteConvert_idem (p : List Color) (hp : p ≠ [])
    (hbyte : ∀ v ∈ p, ByteColor v) (c : Color) :
    paletteConvert p (paletteConvert p c) = paletteConvert p c := by
  have hw : paletteConvert p c ∈ p := paletteConvert_mem p c hp
  have hzero : ∃ v ∈ p, paletteDist (paletteConvert p c).RGBA v = 0 :=
    ⟨paletteConvert p c, hw, paletteDist_self _⟩
  have hd := paletteConvert_dist_zero p (paletteConvert p c) hzero
  have hm2 := paletteConvert_mem p (paletteConvert p c) hp
  exact byte_eq_of_dist_zero _ _ (hbyte _ hw) (hbyte _ hm2) hd

/-- The monochrome strategy only ever returns the two `Gray16`
extremes. -/
theorem bw_two_values (c : Color) :
    BlackAndWhitePalette c = Color.gray16 0 ∨
      BlackAndWhitePalette c = Color.gray16 65535 := by
  unfold BlackAndWhitePalette
  dsimp only
  by_cases h : (c.RGBA.r + c.RGBA.g + c.RGBA.b) / 3 < 65535 >>> 1
  · rw [if_pos h]
    exact Or.inl rfl
  · rw [if_neg h]
    exact Or.inr rfl

/-- The monochrome strategy is idempotent. -/
theorem bw_idem (c : Color) :
    BlackAndWhitePalette (BlackAndWhitePalette c) = BlackAndWhitePalette c := by
  rcases bw_two_values c with h | h <;> rw [h] <;> decide

/-- C7: every palette strategy of the package — monochrome, web-safe
and Plan9 — is idempotent: re-quantizing an already-quantized color
returns it unchanged. -/
theorem c7_palette_idempotent (c : Color) :
    BlackAndWhitePalette (BlackAndWhitePalette c) = BlackAndWhitePalette c ∧
    WebSafePalette (WebSafePalette c) = WebSafePalette c ∧
    Plan9Palette (Plan9Palette c) = Plan9Palette c := by
  refine ⟨bw_idem c, ?_, ?_⟩
  · unfold WebSafePalette
    exact paletteConvert_idem WebSafe webSafe_ne_nil webSafe_byte c
  · unfold Plan9Palette
    exact paletteConvert_idem Plan9 plan9_ne_nil plan9_byte c

/-- `Set` never changes the bounds. -/
theorem set_rect (d : RGBAImage) (x y : Int) (c : Color) :
    (d.Set x y c).rect = d.rect := by
  unfold RGBAImage.Set
  split <;> rfl

/-- `Set` leaves every other position untouched. -/
theorem set_data_ne (d : RGBAImage) (x y : Int) (c : Color) (a b : Int)
    (h : ¬(a = x ∧ b = y)) : (d.Set x y c).data a b = d.data a b := by
  unfold RGBAImage.Set
  split
  · simp [h]
  · rfl

/-- An in-bounds `Set` stores the `RGBAModel` conversion at its target. -/
theorem set_data_self (d : RGBAImage) (x y : Int) (c : Color)
    (h : d.rect.inside x y) : (d.Set x y c).data x y = rgbaModel c := by
  unfold RGBAImage.Set
  rw [if_pos h]
  simp

/-- An out-of-bounds `Set` is a silent no-op. -/
theorem set_out_of_bounds (d : RGBAImage) (x y : Int) (c : Color)
    (h : ¬ d.rect.inside x y) : d.Set x y c = d := by
  unfold RGBAImage.Set
  rw [if_neg h]

/-- The Floyd-Steinberg kernel writes only to pixels strictly after the
current one in raster order. -/
theorem floydSteinberg_raster : RasterKernel FloydSteinberg := by
  constructor
  · intro x y img err
    unfold FloydSteinberg
    dsimp only
    rw [set_rect, set_rect, set_rect, set_rect]
  · intro x y img err a b h
    unfold FloydSteinberg
    dsimp only
    rw [set_data_ne _ _ _ _ _ _ (by omega), set_data_ne _ _ _ _ _ _ (by omega),
      set_data_ne _ _ _ _ _ _ (by omega), set_data_ne _ _ _ _ _ _ (by omega)]

/-- The Burkes kernel writes only to pixels strictly after the current
one in raster order. -/
theorem burkes_raster : RasterKernel Burkes := by
  constructor
  · intro x y img err
    unfold Burkes
    dsimp only
    rw [set_rect, set_rect, set_rect, set_rect, set_rect, set_rect, set_rect]
  · intro x y img err a b h
    unfold Burkes
    dsimp only
    rw [set_data_ne _ _ _ _ _ _ (by omega), set_data_ne _ _ _ _ _ _ (by omega),
      set_data_ne _ _ _ _ _ _ (by omega), set_data_ne _ _ _ _ _ _ (by omega),
      set_data_ne _ _ _ _ _ _ (by omega), set_data_ne _ _ _ _ _ _ (by omega),
      set_data_ne _ _ _ _ _ _ (by omega)]

/-- Every `RGBA()` channel fits in 16 bits. -/
theorem color_RGBA_le (c : Color) :
    c.RGBA.r ≤ 65535 ∧ c.RGBA.g ≤ 65535 ∧ c.RGBA.b ≤ 65535 ∧ c.RGBA.a ≤ 65535 := by
  cases c with
  | rgba r g b a =>
    dsimp only [Color.RGBA]
    refine ⟨?_, ?_, ?_, ?_⟩ <;> omega
  | nrgba64 r g b a =>
    dsimp only [Color.RGBA]
    have key : ∀ u v : Nat, u % 65536 * (v % 65536) / 65535 ≤ 65535 := by
      intro u v
      calc u % 65536 * (v % 65536) / 65535 ≤ 65535 * 65535 / 65535 :=
          Nat.div_le_div_right (Nat.mul_le_mul (by omega) (by omega))
        _ = 65535 := by norm_num
    exact ⟨key r a, key g a, key b a, by omega⟩
  | gray16 y =>
    dsimp only [Color.RGBA]
    refine ⟨?_, ?_, ?_, ?_⟩ <;> omega

/-- Every stored channel produced by `RGBAModel` fits in 8 bits. -/
theorem rgbaModel_le (c : Color) :
    (rgbaModel c).r ≤ 255 ∧ (rgbaModel c).g ≤ 255 ∧
      (rgbaModel c).b ≤ 255 ∧ (rgbaModel c).a ≤ 255 := by
  obtain ⟨h1, h2, h3, h4⟩ := color_RGBA_le c
  unfold rgbaModel
  simp only [Nat.shiftRight_eq_div_pow]
  refine ⟨?_, ?_, ?_, ?_⟩ <;> omega

/-- `Set` preserves the 8-bit storage invariant. -/
theorem set_bounded (d : RGBAImage) (x y : Int) (c : Color) (h : Bounded d) :
    Bounded (d.Set x y c) := by
  intro u v
  unfold RGBAImage.Set
  split
  · dsimp only
    split
    · exact rgbaModel_le c
    · exact h u v
  · exact h u v

/-- A freshly allocated buffer satisfies the storage invariant. -/
theorem newRGBA_bounded (rc : Rect) : Bounded (NewRGBA rc) := by
  intro u v
  dsimp only [NewRGBA]
  omega

/-- Both kernels preserve the 8-bit storage invariant. -/
theorem floydSteinberg_bounded (x y : Int) (img : RGBAImage) (err : RGBAVec)
    (h : Bounded img) : Bounded (FloydSteinberg x y img err) := by
  unfold FloydSteinberg
  dsimp only
  exact set_bounded _ _ _ _ (set_bounded _ _ _ _ (set_bounded _ _ _ _
    (set_bounded _ _ _ _ h)))

theorem burkes_bounded (x y : Int) (img : RGBAImage) (err : RGBAVec)
    (h : Bounded img) : Bounded (Burkes x y img err) := by
  unfold Burkes
  dsimp only
  exact set_bounded _ _ _ _ (set_bounded _ _ _ _ (set_bounded _ _ _ _
    (set_bounded _ _ _ _ (set_bounded _ _ _ _ (set_bounded _ _ _ _
      (set_bounded _ _ _ _ h))))))

/-- The state-pair loop only rewrites the `dithered` component: it is
the plain image loop paired with an untouched source. -/
theorem ditherState_fold (algo : Algo) (find : Color → Color) :
    ∀ (pts : List (Int × Int)) (s : DitherState),
      pts.foldl (fun s p => ⟨s.img, ditherBody algo find p s.dithered⟩) s =
        ⟨s.img, pts.foldl (fun d p => ditherBody algo find p d) s.dithered⟩ := by
  intro pts
  induction pts with
  | nil => intro s; rfl
  | cons p rest ih =>
    intro s
    rw [List.foldl_cons, List.foldl_cons, ih]

/-- The returned image is the image loop run on the initial copy. -/
theorem dither_eq_foldl (img : SrcImage) (algo : Algo) (find : Color → Color) :
    Dither img algo find =
      (rectPts img.rect).foldl (fun d p => ditherBody algo find p d)
        (drawCopy (NewRGBA img.rect) img) := by
  unfold Dither DitherRun
  dsimp only
  rw [ditherState_fold]

/-- The copy loop preserves the bounds. -/
theorem foldl_set_rect (src : SrcImage) :
    ∀ (pts : List (Int × Int)) (d : RGBAImage),
      (pts.foldl (fun d p => d.Set p.1 p.2 (src.colAt p.1 p.2)) d).rect = d.rect := by
  intro pts
  induction pts with
  | nil => intro d; rfl
  | cons p rest ih =>
    intro d
    rw [List.foldl_cons, ih, set_rect]

/-- The copy loop preserves the storage invariant. -/
theorem foldl_set_bounded (src : SrcImage) :
    ∀ (pts : List (Int × Int)) (d : RGBAImage), Bounded d →
      Bounded (pts.foldl (fun d p => d.Set p.1 p.2 (src.colAt p.1 p.2)) d) := by
  intro pts
  induction pts with
  | nil => intro d h; exact h
  | cons p rest ih =>
    intro d h
    rw [List.foldl_cons]
    exact ih _ (set_bounded _ _ _ _ h)

/-- The dither loop preserves the bounds for any raster kernel. -/
theorem foldl_body_rect (algo : Algo) (find : Color → Color)
    (hk : RasterKernel algo) :
    ∀ (pts : List (Int × Int)) (d : RGBAImage),
      (pts.foldl (fun d p => ditherBody algo find p d) d).rect = d.rect := by
  intro pts
  induction pts with
  | nil => intro d; rfl
  | cons p rest ih =>
    intro d
    rw [List.foldl_cons, ih]
    unfold ditherBody
    rw [hk.1, set_rect]

/-- The dither loop preserves the storage invariant when the kernel
does. -/
theorem foldl_body_bounded (algo : Algo) (find : Color → Color)
    (ha : ∀ x y img err, Bounded img → Bounded (algo x y img err)) :
    ∀ (pts : List (Int × Int)) (d : RGBAImage), Bounded d →
      Bounded (pts.foldl (fun d p => ditherBody algo find p d) d) := by
  intro pts
  induction pts with
  | nil => intro d h; exact h
  | cons p rest ih =>
    intro d h
    rw [List.foldl_cons]
    exact ih _ (ha _ _ _ _ (set_bounded _ _ _ _ h))

/-- Processing only pixels strictly after `(a, b)` in raster order
leaves the stored value at `(a, b)` unchanged. -/
theorem foldl_body_frame (algo : Algo) (find : Color → Color)
    (hk : RasterKernel algo) (a b : Int) :
    ∀ (pts : List (Int × Int)) (d : RGBAImage),
      (∀ q ∈ pts, rasterLT (a, b) q) →
      (pts.foldl (fun d p => ditherBody algo find p d) d).data a b = d.data a b := by
  intro pts
  induction pts with
  | nil => intro d _; rfl
  | cons p rest ih =>
    intro d hall
    rw [List.foldl_cons, ih _ (fun q hq => hall q (List.mem_cons_of_mem p hq))]
    have hp := hall p (List.mem_cons_self p rest)
    unfold rasterLT at hp
    unfold ditherBody
    rw [hk.2 _ _ _ _ _ _ (by dsimp only at hp ⊢; omega),
      set_data_ne _ _ _ _ _ _ (by dsimp only at hp ⊢; omega)]

/-- Membership in an integer range. -/
theorem mem_intRange (a b x : Int) : x ∈ intRange a b ↔ a ≤ x ∧ x < b := by
  unfold intRange
  simp only [List.mem_map, List.mem_range]
  constructor
  · rintro ⟨i, hi, rfl⟩
    omega
  · rintro ⟨h1, h2⟩
    exact ⟨(x - a).toNat, by omega, by omega⟩

/-- Integer ranges are strictly increasing. -/
theorem pairwise_intRange (a b : Int) : (intRange a b).Pairwise (· < ·) := by
  unfold intRange
  rw [List.pairwise_map]
  exact (List.pairwise_lt_range _).imp (by omega)

/-- Membership in one row of the traversal. -/
theorem mem_rowPts (rc : Rect) (y : Int) (p : Int × Int) :
    p ∈ rowPts rc y ↔ rc.minX ≤ p.1 ∧ p.1 < rc.maxX ∧ p.2 = y := by
  unfold rowPts
  simp only [List.mem_map, mem_intRange]
  constructor
  · rintro ⟨x, hx, rfl⟩
    exact ⟨hx.1, hx.2, rfl⟩
  · rintro ⟨h1, h2, h3⟩
    exact ⟨p.1, ⟨h1, h2⟩, by rw [← h3]⟩

/-- The traversal visits exactly the in-bounds points. -/
theorem mem_rectPts (rc : Rect) (p : Int × Int) :
    p ∈ rectPts rc ↔ rc.inside p.1 p.2 := by
  unfold rectPts Rect.inside
  simp only [List.mem_flatMap, mem_intRange, mem_rowPts]
  constructor
  · rintro ⟨y, hy, h1, h2, rfl⟩
    exact ⟨h1, h2, hy.1, hy.2⟩
  · rintro ⟨h1, h2, h3, h4⟩
    exact ⟨p.2, ⟨h3, h4⟩, h1, h2, rfl⟩

/-- The traversal is strictly increasing in raster order. -/
theorem pairwise_rectPts (rc : Rect) : (rectPts rc).Pairwise rasterLT := by
  unfold rectPts
  have aux : ∀ ys : List Int, ys.Pairwise (· < ·) →
      (ys.flatMap (rowPts rc)).Pairwise rasterLT := by
    intro ys
    induction ys with
    | nil => intro _; exact List.Pairwise.nil
    | cons y rest ih =>
      intro hpw
      rw [List.flatMap_cons, List.pairwise_append]
      rcases hpw with _ | ⟨hhead, htail⟩
      refine ⟨?_, ih htail, ?_⟩
      · unfold rowPts
        rw [List.pairwise_map]
        exact (pairwise_intRange _ _).imp (by intro a b h; right; exact ⟨rfl, h⟩)
      · intro p hp q hq
        obtain ⟨_, _, hpy⟩ := (mem_rowPts rc y p).mp hp
        obtain ⟨y2, hy2, hq2⟩ := List.mem_flatMap.mp hq
        obtain ⟨_, _, hqy⟩ := (mem_rowPts rc y2 q).mp hq2
        left
        rw [hpy, hqy]
        exact hhead y2 hy2
  exact aux _ (pairwise_intRange _ _)

/-- The monochrome strategy always stores one of the two extreme 8-bit
pixels. -/
theorem bw_stored_pixel (c : Color) :
    rgbaModel (BlackAndWhitePalette c) = ⟨0, 0, 0, 255⟩ ∨
      rgbaModel (BlackAndWhitePalette c) = ⟨255, 255, 255, 255⟩ := by
  rcases bw_two_values c with h | h <;> rw [h]
  · left
    rfl
  · right
    rfl

/-- Main invariant for C1: after the dither loop processes a strictly
increasing list of in-bounds points containing `p`, the stored pixel at
`p` is pure black or pure white, because `p`'s own quantization writes
an extreme value and every later step only writes strictly past itself
in raster order. -/
theorem foldl_body_isBW (algo : Algo) (hk : RasterKernel algo) (p : Int × Int) :
    ∀ (pts : List (Int × Int)) (d : RGBAImage),
      pts.Pairwise rasterLT → p ∈ pts → d.rect.inside p.1 p.2 →
      ((pts.foldl (fun d q => ditherBody algo BlackAndWhitePalette q d) d).data p.1 p.2
          = ⟨0, 0, 0, 255⟩ ∨
        (pts.foldl (fun d q => ditherBody algo BlackAndWhitePalette q d) d).data p.1 p.2
          = ⟨255, 255, 255, 255⟩) := by
  intro pts
  induction pts with
  | nil =>
    intro d _ hmem _
    exact absurd hmem (List.not_mem_nil p)
  | cons q rest ih =>
    intro d hpw hmem hin
    rcases hpw with _ | ⟨hhead, htail⟩
    rw [List.foldl_cons]
    rcases List.mem_cons.mp hmem with rfl | hmem2
    · rw [foldl_body_frame algo BlackAndWhitePalette hk p.1 p.2 rest _
        (fun r hr => by
          have := hhead r hr
          exact this)]
      unfold ditherBody
      rw [hk.2 _ _ _ _ _ _ (Or.inr ⟨rfl, le_refl _⟩)]
      rw [set_data_self _ _ _ _ hin]
      exact bw_stored_pixel _
    · refine ih _ htail hmem2 ?_
      unfold ditherBody
      rw [hk.1, set_rect]
      exact hin

/-- C1: with the monochrome strategy and either kernel of the package,
every in-bounds pixel of the returned image is pure black
`RGBA(0,0,0,255)` or pure white `RGBA(255,255,255,255)`: each pixel is
quantized to an extreme when visited, and every later kernel
application writes only to pixels strictly after itself in raster
order, so no quantized pixel is ever overwritten. -/
theorem c1_monochrome_output (img : SrcImage) (algo : Algo)
    (halgo : algo = FloydSteinberg ∨ algo = Burkes) (x y : Int)
    (hin : img.rect.inside x y) :
    (Dither img algo BlackAndWhitePalette).At x y = Color.rgba 0 0 0 255 ∨
    (Dither img algo BlackAndWhitePalette).At x y = Color.rgba 255 255 255 255 := by
  have hk : RasterKernel algo := by
    rcases halgo with rfl | rfl
    · exact floydSteinberg_raster
    · exact burkes_raster
  rw [dither_eq_foldl]
  have hrect0 : (drawCopy (NewRGBA img.rect) img).rect = img.rect := by
    unfold drawCopy
    rw [foldl_set_rect]
    rfl
  have hmem : (x, y) ∈ rectPts img.rect := (mem_rectPts _ _).mpr hin
  have hbw := foldl_body_isBW algo hk (x, y) (rectPts img.rect)
    (drawCopy (NewRGBA img.rect) img) (pairwise_rectPts _) hmem
    (by rw [hrect0]; exact hin)
  dsimp only at hbw
  have hrectF : ((rectPts img.rect).foldl
      (fun d q => ditherBody algo BlackAndWhitePalette q d)
      (drawCopy (NewRGBA img.rect) img)).rect = img.rect := by
    rw [foldl_body_rect algo _ hk, hrect0]
  unfold RGBAImage.At
  rw [hrectF, if_pos hin]
  rcases hbw with h | h <;> rw [h]
  · left
    rfl
  · right
    rfl

/-- C1 witness at a concrete two-pixel image with the Burkes kernel. -/
theorem c1_witness :
    (Dither ⟨⟨0, 0, 2, 1⟩, fun _ _ => Color.rgba 10 200 30 255⟩ Burkes
        BlackAndWhitePalette).At 0 0 = Color.rgba 0 0 0 255 ∨
    (Dither ⟨⟨0, 0, 2, 1⟩, fun _ _ => Color.rgba 10 200 30 255⟩ Burkes
        BlackAndWhitePalette).At 0 0 = Color.rgba 255 255 255 255 :=
  c1_monochrome_output _ _ (Or.inr rfl) 0 0 (by decide)

/-- C6: for every input image (zero-area included) and either kernel,
`Dither` returns an image with exactly the input bounds; the operation
is total. -/
theorem c6_bounds_preserved (img : SrcImage) (algo : Algo) (find : Color → Color)
    (halgo : algo = FloydSteinberg ∨ algo = Burkes) :
    (Dither img algo find).rect = img.rect := by
  have hk : RasterKernel algo := by
    rcases halgo with rfl | rfl
    · exact floydSteinberg_raster
    · exact burkes_raster
  rw [dither_eq_foldl, foldl_body_rect algo find hk]
  unfold drawCopy
  rw [foldl_set_rect]
  rfl

/-- C6 witness at a concrete zero-area image. -/
theorem c6_witness :
    (Dither ⟨⟨3, 3, 3, 3⟩, fun _ _ => Color.rgba 1 2 3 4⟩ FloydSteinberg
        BlackAndWhitePalette).rect = Rect.mk 3 3 3 3 :=
  c6_bounds_preserved _ _ _ (Or.inl rfl)

/-- C8: `Dither` never mutates its source image: in the state-passing
rendering of the call, where every write of the source program targets
the freshly allocated `dithered` buffer, the source component of the
final state is the unchanged input, for every kernel and strategy. -/
theorem c8_source_not_mutated (img : SrcImage) (algo : Algo)
    (find : Color → Color) : (DitherRun img algo find).img = img := by
  unfold DitherRun
  dsimp only
  rw [ditherState_fold]

/-- C9: kernel writes whose offsets fall outside the bounds are silent
no-ops (the error share is discarded, with no renormalization and no
wraparound), and an in-bounds neighbor still receives its share: the
right neighbor of a Floyd-Steinberg application gets exactly the
weight-7 update whether or not the other three targets exist. -/
theorem c9_boundary_safety (d : RGBAImage) (x y : Int) (c : Color)
    (hout : ¬ d.rect.inside x y) (img : RGBAImage) (err : RGBAVec) (u v : Int)
    (hin : img.rect.inside (u + 1) v) :
    d.Set x y c = d ∧
    (FloydSteinberg u v img err).data (u + 1) v =
      rgbaModel (applyWeightsFloydSteinber (img.At (u + 1) v) err 7) := by
  refine ⟨set_out_of_bounds d x y c hout, ?_⟩
  unfold FloydSteinberg
  dsimp only
  rw [set_data_ne _ _ _ _ _ _ (by omega), set_data_ne _ _ _ _ _ _ (by omega),
    set_data_ne _ _ _ _ _ _ (by omega), set_data_self _ _ _ _ hin]

/-- C9 witness: an out-of-bounds `Set` on a one-pixel image and a
Floyd-Steinberg application on a 2-by-1 image whose three lower targets
are all out of bounds. -/
theorem c9_witness :
    ((⟨⟨0, 0, 1, 1⟩, fun _ _ => ⟨0, 0, 0, 0⟩⟩ : RGBAImage).Set 5 5
        (Color.rgba 1 2 3 4) = ⟨⟨0, 0, 1, 1⟩, fun _ _ => ⟨0, 0, 0, 0⟩⟩) ∧
    (FloydSteinberg 0 0 ⟨⟨0, 0, 2, 1⟩, fun _ _ => ⟨0, 0, 0, 255⟩⟩
        ⟨257, 0, 0, 0⟩).data (0 + 1) 0 =
      rgbaModel (applyWeightsFloydSteinber
        ((⟨⟨0, 0, 2, 1⟩, fun _ _ => ⟨0, 0, 0, 255⟩⟩ : RGBAImage).At (0 + 1) 0)
        ⟨257, 0, 0, 0⟩ 7) :=
  c9_boundary_safety _ 5 5 _ (by decide) _ _ 0 0 (by decide)

/-- C10: every pixel readable from the returned image has each 16-bit
channel equal to an 8-bit value replicated to 16 bits (`k * 0x101`
with `k ≤ 255`): the engine stores into an 8-bit-per-channel RGBA
buffer, truncating every write. -/
theorem c10_output_8bit_replicated (img : SrcImage) (algo : Algo)
    (find : Color → Color) (halgo : algo = FloydSteinberg ∨ algo = Burkes)
    (x y : Int) :
    ∃ kr kg kb ka, kr ≤ 255 ∧ kg ≤ 255 ∧ kb ≤ 255 ∧ ka ≤ 255 ∧
      ((Dither img algo find).At x y).RGBA =
        ⟨kr * 257, kg * 257, kb * 257, ka * 257⟩ := by
  have ha : ∀ x y img err, Bounded img → Bounded (algo x y img err) := by
    rcases halgo with rfl | rfl
    · exact floydSteinberg_bounded
    · exact burkes_bounded
  have hb : Bounded (Dither img algo find) := by
    rw [dither_eq_foldl]
    apply foldl_body_bounded algo find ha
    unfold drawCopy
    apply foldl_set_bounded
    exact newRGBA_bounded _
  unfold RGBAImage.At
  split
  · obtain ⟨h1, h2, h3, h4⟩ := hb x y
    refine ⟨((Dither img algo find).data x y).r, ((Dither img algo find).data x y).g,
      ((Dither img algo find).data x y).b, ((Dither img algo find).data x y).a,
      h1, h2, h3, h4, ?_⟩
    dsimp only [Color.RGBA]
    simp only [RGBAQuad.mk.injEq]
    refine ⟨by omega, by omega, by omega, by omega⟩
  · exact ⟨0, 0, 0, 0, by omega, by omega, by omega, by omega, by decide⟩

/-- C10 witness at a concrete one-pixel image. -/
theorem c10_witness :
    ∃ kr kg kb ka, kr ≤ 255 ∧ kg ≤ 255 ∧ kb ≤ 255 ∧ ka ≤ 255 ∧
      ((Dither ⟨⟨0, 0, 1, 1⟩, fun _ _ => Color.nrgba64 40000 2 3 60000⟩
          FloydSteinberg BlackAndWhitePalette).At 0 0).RGBA =
        ⟨kr * 257, kg * 257, kb * 257, ka * 257⟩ :=
  c10_output_8bit_replicated _ _ _ (Or.inl rfl) 0 0

end Ditherio
